import Mathlib

/-!
Verification of the formula reference remapping engine of the excel_splitter
repository: class `FormulaHelper` in `src/excel_splitter_V2.py`, whose code is
identical in `src/excel_splitter_v1.1.0.py`.

Formulas are modelled as lists of characters, Python dictionaries as
association lists queried with `List.lookup`, and the two regular expressions
used by `parse_cell_references` and `adjust_formula_references` are modelled by
explicit backtracking matchers over the ASCII fragment of the character
classes involved (the claims and the reference grammar of the spec only
exercise ASCII).  Recursions that walk a string are driven by a fuel argument
equal to the string length, which is sufficient because every step consumes at
least one character; this keeps every definition kernel-reducible.
-/

set_option maxRecDepth 20000

namespace ExcelSplitter

/-- Characters matched by the regex class `[A-Z]` (codes 65 to 90). -/
def isUpperAZ (c : Char) : Bool := 65 ≤ c.toNat && c.toNat ≤ 90

/-- Characters matched by the regex class `[0-9]` (codes 48 to 57). -/
def isDigit09 (c : Char) : Bool := 48 ≤ c.toNat && c.toNat ≤ 57

/-- Characters matched by the regex class `[a-z]` (codes 97 to 122). -/
def isLowerAZ (c : Char) : Bool := 97 ≤ c.toNat && c.toNat ≤ 122

/-- ASCII fragment of the regex class `\w`: letters, digits and underscore. -/
def isWordCh (c : Char) : Bool := isUpperAZ c || isLowerAZ c || isDigit09 c || c = '_'

/-- ASCII fragment of the regex class `\s`: space, tab, newline, carriage
return, vertical tab (11) and form feed (12). -/
def isSpaceCh (c : Char) : Bool :=
  c = ' ' || c = '\t' || c = '\n' || c = '\r' || c.toNat = 11 || c.toNat = 12

/-- Characters matched by `[\w\s]`, the sheet-name part of the qualifier. -/
def isNameCh (c : Char) : Bool := isWordCh c || isSpaceCh c

/-- Characters matched by the quote class of the qualifier: apostrophe (39) or
double quote (34). -/
def isQuoteCh (c : Char) : Bool := c.toNat = 39 || c.toNat = 34

/-- Greedily take the longest run of characters satisfying `p`; returns the
run and the remaining suffix. -/
def takeRun (p : Char → Bool) : List Char → List Char × List Char
  | [] => ([], [])
  | c :: cs =>
    if p c then
      let r := takeRun p cs
      (c :: r.1, r.2)
    else ([], c :: cs)

/-- Consume an optional leading dollar sign, as the greedy optional item of
the regex fragment matching a dollar sign. -/
def dollarHead (l : List Char) : List Char × List Char :=
  match l with
  | c :: cs => if c == '$' then (['$'], cs) else ([], c :: cs)
  | [] => ([], [])

/-- Deterministic matcher for the capture group of the reference regex: an
optional dollar sign, one or more letters `[A-Z]`, an optional dollar sign,
one or more digits.  Greedy matching with backtracking collapses to this
deterministic form because a shorter letter run is followed by another letter,
which can match neither the dollar sign nor a digit.  Returns the column part
(optional dollar plus letters), the row part (optional dollar plus digits) and
the unconsumed suffix. -/
def refCore (l : List Char) : Option (List Char × List Char × List Char) :=
  let s1 := dollarHead l
  let s2 := takeRun isUpperAZ s1.2
  if s2.1 = [] then none
  else
    let s3 := dollarHead s2.2
    let s4 := takeRun isDigit09 s3.2
    if s4.1 = [] then none
    else some (s1.1 ++ s2.1, s3.1 ++ s4.1, s4.2)

/-- The captured token and the rest, as returned by a successful match of the
capture group of the reference regex of `parse_cell_references`. -/
def group1 (l : List Char) : Option (List Char × List Char) :=
  match refCore l with
  | some (c, r, rest) => some (c ++ r, rest)
  | none => none

/-- Model of `re.match` with the pattern used inside
`adjust_formula_references` to split a captured reference into its column
part and its row part (trailing characters are ignored, as `re.match` only
anchors at the start). -/
def splitRef (l : List Char) : Option (List Char × List Char) :=
  match refCore l with
  | some (c, r, _) => some (c, r)
  | none => none

/-- Require a literal exclamation mark and return what follows it. -/
def afterBang : List Char → Option (List Char)
  | '!' :: cs => some cs
  | _ => none

/-- Backtracking candidates for the optional closing quote of the sheet-name
qualifier, in greedy preference order: consume the quote first when present. -/
def q2Rests (l : List Char) : List (List Char) :=
  match l with
  | c :: cs => if isQuoteCh c then [cs, c :: cs] else [c :: cs]
  | [] => [[]]

/-- Backtracking candidates (suffixes remaining) after matching a nonempty
sheet name followed by an optional quote and the exclamation mark, starting
after the optional opening quote.  The name run length is tried from longest
to shortest, matching the greedy `+` with backtracking. -/
def innerEnds (l1 : List Char) : List (List Char) :=
  let k := (takeRun isNameCh l1).1.length
  ((List.range k).map (fun i => l1.drop (k - i))).flatMap
    (fun l2 => (q2Rests l2).filterMap afterBang)

/-- All backtracking candidates for the optional sheet qualifier of the
reference regex, in the preference order of the regex engine: qualifier with
opening quote, qualifier without opening quote, bare exclamation mark, and
finally no qualifier at all. -/
def qEnds (l : List Char) : List (List Char) :=
  (match l with
   | c :: cs => if isQuoteCh c then innerEnds cs ++ innerEnds (c :: cs) else innerEnds (c :: cs)
   | [] => innerEnds []) ++ (afterBang l).toList ++ [l]

/-- Attempt to match the full reference regex at the head of `l`: the first
qualifier candidate after which the capture group succeeds wins.  Returns the
captured token and the suffix after the whole match. -/
def matchAt (l : List Char) : Option (List Char × List Char) :=
  (qEnds l).findSome? group1

/-- Model of `re.findall` with the reference regex: scan left to right, at
each position try a match; on success emit the captured group and resume after
the match.  The fuel equals the remaining length, which suffices since every
step consumes at least one character. -/
def findAllAux : Nat → List Char → List (List Char)
  | 0, _ => []
  | _ + 1, [] => []
  | fuel + 1, c :: cs =>
    match matchAt (c :: cs) with
    | some (tok, rest) => tok :: findAllAux fuel rest
    | none => findAllAux fuel cs

/-- `FormulaHelper.parse_cell_references`: all cell-reference tokens captured
by the regex, in order of occurrence. -/
def parse_cell_references (formula : List Char) : List (List Char) :=
  findAllAux formula.length formula

/-- Python `int` on a string of decimal digits. -/
def digitsToNat (l : List Char) : Nat :=
  l.foldl (fun acc c => 10 * acc + (c.toNat - 48)) 0

/-- The decimal digit character of a value below ten. -/
def digitChar (n : Nat) : Char :=
  match n with
  | 0 => '0'
  | 1 => '1'
  | 2 => '2'
  | 3 => '3'
  | 4 => '4'
  | 5 => '5'
  | 6 => '6'
  | 7 => '7'
  | 8 => '8'
  | _ => '9'

/-- Decimal digits of `n`, most significant first; fuel-driven so that the
kernel can evaluate it (fuel `n + 1` always suffices since `n / 10 < n`). -/
def natToDigitsAux : Nat → Nat → List Char
  | 0, _ => []
  | fuel + 1, n =>
    if n < 10 then [digitChar n]
    else natToDigitsAux fuel (n / 10) ++ [digitChar (n % 10)]

/-- Python `str` on a natural number: its decimal digits. -/
def natToDigits (n : Nat) : List Char :=
  natToDigitsAux (n + 1) n

/-- Whether a row part is an absolute reference, as
`row_ref.startswith('$')` in the source. -/
def rowAbs (r : List Char) : Bool :=
  match r with
  | c :: _ => c == '$'
  | [] => false

/-- The numeric row of a row part: `int(row_ref[1:])` for an absolute
reference, `int(row_ref)` otherwise. -/
def rowVal (r : List Char) : Nat :=
  if rowAbs r = true then digitsToNat r.tail else digitsToNat r

/-- Boolean prefix test on character lists. -/
def isPrefixCh : List Char → List Char → Bool
  | [], _ => true
  | _ :: _, [] => false
  | a :: as, b :: bs => a == b && isPrefixCh as bs

/-- Worker for `pyReplace` with a nonempty pattern `p :: ps`: replace each
non-overlapping occurrence, scanning left to right.  Fuel equal to the length
of the scanned list suffices since every step consumes at least one
character. -/
def replGo (p : Char) (ps repl : List Char) : Nat → List Char → List Char
  | _, [] => []
  | 0, s => s
  | fuel + 1, c :: cs =>
    if isPrefixCh (p :: ps) (c :: cs) then repl ++ replGo p ps repl fuel (cs.drop ps.length)
    else c :: replGo p ps repl fuel cs

/-- Python `str.replace`: replace every non-overlapping occurrence of `pat`
in `s` by `repl`, left to right.  An empty pattern inserts `repl` at every
position, as in Python. -/
def pyReplace (s pat repl : List Char) : List Char :=
  match pat with
  | [] => repl ++ s.flatMap (fun c => c :: repl)
  | p :: ps => replGo p ps repl s.length s

/-- Insert into a list already sorted by descending length, placing the new
element before existing elements of equal length (so that `sortByLenDesc` is
the stable descending sort that Python `list.sort(key=len, reverse=True)`
performs). -/
def insertByLenDesc (x : List Char) : List (List Char) → List (List Char)
  | [] => [x]
  | y :: ys => if y.length ≤ x.length then x :: y :: ys else y :: insertByLenDesc x ys

/-- Stable sort by descending textual length, modelling
`cell_refs.sort(key=len, reverse=True)`. -/
def sortByLenDesc (l : List (List Char)) : List (List Char) :=
  l.foldr insertByLenDesc []

/-- One iteration of the loop body of `adjust_formula_references`: split the
reference, look the row number up in the mapping, and when it is mapped to a
surviving row, replace every occurrence of the reference text in the evolving
formula by the rebuilt reference. -/
def adjustStep (m : List (Nat × Option Nat)) (acc ref : List Char) : List Char :=
  match splitRef ref with
  | none => acc
  | some (colRef, rowRef) =>
    match List.lookup (rowVal rowRef) m with
    | none => acc
    | some none => acc
    | some (some newRow) =>
      pyReplace acc ref (colRef ++ (if rowAbs rowRef then ['$'] else []) ++ natToDigits newRow)

/-- `FormulaHelper.adjust_formula_references`: strings not starting with an
equals sign pass through; otherwise every captured reference, in descending
length order, is processed by `adjustStep` over the evolving formula. -/
def adjust_formula_references (formula : List Char) (m : List (Nat × Option Nat)) : List Char :=
  if formula.head? = some '=' then
    (sortByLenDesc (parse_cell_references formula)).foldl (adjustStep m) formula
  else formula

/-- Worker of `build_row_mapping_after_deletion`: walk the sorted original
row numbers keeping the running offset of deletions seen so far. -/
def buildAux (deleted : Finset Nat) : List Nat → Nat → List (Nat × Option Nat)
  | [], _ => []
  | r :: rs, off =>
    if r ∈ deleted then (r, none) :: buildAux deleted rs (off + 1)
    else (r, some (r - off)) :: buildAux deleted rs off

/-- `FormulaHelper.build_row_mapping_after_deletion`: the original map is a
Python dict whose keys are the original row numbers (only the key set matters
to the function), iterated in ascending order. -/
def build_row_mapping_after_deletion (originalKeys : Finset Nat) (deleted : Finset Nat) :
    List (Nat × Option Nat) :=
  buildAux deleted (originalKeys.sort (· ≤ ·)) 0

/-- An openpyxl cell value as seen by `update_formulas_in_sheet`: either a
string or any non-string value. -/
inductive CellValue where
  | str : List Char → CellValue
  | nonstr : CellValue
deriving DecidableEq

/-- An openpyxl cell as seen by `update_formulas_in_sheet`: its `data_type`
(the string tag, `"f"` for formulas) and its value. -/
structure Cell where
  data_type : List Char
  value : CellValue
deriving DecidableEq

/-- The per-cell action of `update_formulas_in_sheet`: for a formula cell
holding a nonempty string, adjust the formula; when it changed, write it back
and count one update. -/
def adjustCell (m : List (Nat × Option Nat)) (c : Cell) : Cell × Nat :=
  if c.data_type = ['f'] then
    match c.value with
    | CellValue.str s =>
      if s ≠ [] then
        if adjust_formula_references s m ≠ s then
          (Cell.mk c.data_type (CellValue.str (adjust_formula_references s m)), 1)
        else (c, 0)
      else (c, 0)
    | CellValue.nonstr => (c, 0)
  else (c, 0)

/-- `FormulaHelper.update_formulas_in_sheet`: apply `adjustCell` to every cell
of every row and return the updated worksheet together with the number of
updates performed. -/
def update_formulas_in_sheet (ws : List (List Cell)) (m : List (Nat × Option Nat)) :
    List (List Cell) × Nat :=
  (ws.map (fun row => row.map (fun c => (adjustCell m c).1)),
   (ws.map (fun row => (row.map (fun c => (adjustCell m c).2)).sum)).sum)

/-- Whether a reference token's row number is mapped to the tombstone by the
mapping. -/
def isTombRef (m : List (Nat × Option Nat)) (ref : List Char) : Bool :=
  match splitRef ref with
  | some (_, rowRef) =>
    match List.lookup (rowVal rowRef) m with
    | some none => true
    | _ => false
  | none => false

/-- Variant of `adjust_formula_references` that drops every tombstoned
reference from the substitution list before substituting, written to state
that the engine performs no substitution for a tombstoned reference. -/
def adjustSkippingTombstones (formula : List Char) (m : List (Nat × Option Nat)) : List Char :=
  if formula.head? = some '=' then
    ((sortByLenDesc (parse_cell_references formula)).filter (fun r => !(isTombRef m r))).foldl
      (adjustStep m) formula
  else formula

/-- Boolean substring test: does `tok` occur contiguously inside the list? -/
def containsTok (tok : List Char) : List Char → Bool
  | [] => tok.isEmpty
  | c :: cs => isPrefixCh tok (c :: cs) || containsTok tok cs

/-- Whether a row part is written without leading zeros (a canonical decimal
numeral after the optional dollar sign). -/
def rowNoLeadZero (r : List Char) : Bool :=
  if rowAbs r = true then decide (r.tail.head? ≠ some '0')
  else decide (r.head? ≠ some '0')

/-- Whether a reference token's row number is absent from the mapping. -/
def refRowUnmapped (m : List (Nat × Option Nat)) (ref : List Char) : Bool :=
  match splitRef ref with
  | some (_, rowRef) => (List.lookup (rowVal rowRef) m).isNone
  | none => true

/-- Whether a reference token's row digits carry no leading zero. -/
def refCanonicalRow (ref : List Char) : Bool :=
  match splitRef ref with
  | some (_, rowRef) => rowNoLeadZero rowRef
  | none => true

/-- Structural description of the column and row parts of a captured
reference token: an optional dollar sign followed by a nonempty run of
uppercase letters, and an optional dollar sign followed by a nonempty run of
digits. -/
def TokShape (col row : List Char) : Prop :=
  ∃ dc lets dr digs,
    col = dc ++ lets ∧ row = dr ++ digs ∧
    (dc = [] ∨ dc = ['$']) ∧ (dr = [] ∨ dr = ['$']) ∧
    lets ≠ [] ∧ digs ≠ [] ∧
    (∀ x ∈ lets, isUpperAZ x = true) ∧ (∀ x ∈ digs, isDigit09 x = true)

/-! ## Character facts -/

theorem upper_ne_dollar {c : Char} (h : isUpperAZ c = true) : (c == '$') = false := by
  cases hb : c == '$'
  · rfl
  · exfalso
    have hc : c = '$' := eq_of_beq hb
    subst hc
    exact absurd h (by decide)

theorem digit_ne_dollar {c : Char} (h : isDigit09 c = true) : (c == '$') = false := by
  cases hb : c == '$'
  · rfl
  · exfalso
    have hc : c = '$' := eq_of_beq hb
    subst hc
    exact absurd h (by decide)

theorem digit_not_upper {c : Char} (h : isDigit09 c = true) : isUpperAZ c = false := by
  rw [Bool.eq_false_iff]
  intro hu
  simp only [isDigit09, isUpperAZ, Bool.and_eq_true, decide_eq_true_eq] at h hu
  omega

/-! ## Structure of captured reference tokens -/

theorem takeRun_append (p : Char → Bool) (l : List Char) :
    (takeRun p l).1 ++ (takeRun p l).2 = l := by
  induction l with
  | nil => rfl
  | cons c cs ih =>
    by_cases h : p c
    · simp [takeRun, h, ih]
    · simp [takeRun, h]

theorem takeRun_mem (p : Char → Bool) (l : List Char) :
    ∀ x ∈ (takeRun p l).1, p x = true := by
  induction l with
  | nil => intro x hx; cases hx
  | cons c cs ih =>
    by_cases h : p c
    · intro x hx
      simp only [takeRun, h, if_true] at hx
      rcases List.mem_cons.mp hx with rfl | hx'
      · exact h
      · exact ih x hx'
    · intro x hx
      simp [takeRun, h] at hx

theorem takeRun_of (p : Char → Bool) (xs ys : List Char)
    (hxs : ∀ x ∈ xs, p x = true)
    (hys : ∀ c cs, ys = c :: cs → p c = false) :
    takeRun p (xs ++ ys) = (xs, ys) := by
  induction xs with
  | nil =>
    cases ys with
    | nil => rfl
    | cons c cs => simp [takeRun, hys c cs rfl]
  | cons x xs ih =>
    have hx : p x = true := hxs x (List.mem_cons_self x xs)
    have ih' := ih (fun a ha => hxs a (List.mem_cons_of_mem _ ha))
    simp [takeRun, hx, ih']

theorem refCore_shape (l col row rest : List Char)
    (h : refCore l = some (col, row, rest)) : TokShape col row := by
  simp only [refCore] at h
  split at h
  · cases h
  · split at h
    · cases h
    · rename_i h1 h2
      simp only [Option.some.injEq, Prod.mk.injEq] at h
      obtain ⟨hc, hr, _⟩ := h
      subst hc
      subst hr
      refine ⟨(dollarHead l).1, (takeRun isUpperAZ (dollarHead l).2).1, _, _,
        rfl, rfl, ?_, ?_, h1, h2, takeRun_mem _ _, takeRun_mem _ _⟩
      · cases l with
        | nil => left; rfl
        | cons a as =>
          by_cases hd : (a == '$') = true
          · right
            have : a = '$' := eq_of_beq hd
            subst this
            simp [dollarHead]
          · left
            simp only [dollarHead]
            rw [if_neg (by simp_all)]
      · cases hx : (takeRun isUpperAZ (dollarHead l).2).2 with
        | nil => left; rfl
        | cons a as =>
          by_cases hd : (a == '$') = true
          · right
            have : a = '$' := eq_of_beq hd
            subst this
            simp [dollarHead]
          · left
            simp only [dollarHead]
            rw [if_neg (by simp_all)]

theorem splitRef_recompose (col row : List Char) (h : TokShape col row) :
    splitRef (col ++ row) = some (col, row) := by
  obtain ⟨dc, lets, dr, digs, rfl, rfl, hdc, hdr, hlne, hdne, hlets, hdigs⟩ := h
  have hd1 : dollarHead ((dc ++ lets) ++ (dr ++ digs)) = (dc, lets ++ (dr ++ digs)) := by
    rcases hdc with rfl | rfl
    · cases lets with
      | nil => exact absurd rfl hlne
      | cons a as =>
        have ha : (a == '$') = false := upper_ne_dollar (hlets a (List.mem_cons_self a as))
        simp [dollarHead, ha]
    · simp [dollarHead]
  have hys1 : ∀ c cs, dr ++ digs = c :: cs → isUpperAZ c = false := by
    intro c cs hcs
    rcases hdr with rfl | rfl
    · cases digs with
      | nil => cases hcs
      | cons d ds =>
        simp only [List.nil_append] at hcs
        cases hcs
        exact digit_not_upper (hdigs _ (List.mem_cons_self _ _))
    · cases hcs
      decide
  have ht1 : takeRun isUpperAZ (lets ++ (dr ++ digs)) = (lets, dr ++ digs) :=
    takeRun_of _ _ _ hlets hys1
  have hd2 : dollarHead (dr ++ digs) = (dr, digs) := by
    rcases hdr with rfl | rfl
    · cases digs with
      | nil => exact absurd rfl hdne
      | cons d ds =>
        have hd : (d == '$') = false := digit_ne_dollar (hdigs d (List.mem_cons_self d ds))
        simp [dollarHead, hd]
    · simp [dollarHead]
  have ht2 : takeRun isDigit09 digs = (digs, []) := by
    have := takeRun_of isDigit09 digs [] hdigs (fun c cs hcs => by cases hcs)
    simpa using this
  have hd1' : dollarHead (dc ++ (lets ++ (dr ++ digs))) = (dc, lets ++ (dr ++ digs)) := by
    rw [← List.append_assoc]
    exact hd1
  have key : refCore (dc ++ lets ++ (dr ++ digs)) = some (dc ++ lets, dr ++ digs, []) := by
    rw [List.append_assoc]
    simp [refCore, hd1', ht1, hd2, ht2, hlne, hdne]
  have key' : refCore (dc ++ (lets ++ (dr ++ digs))) = some (dc ++ lets, dr ++ digs, []) := by
    rw [← List.append_assoc]
    exact key
  simp [splitRef, key']

theorem group1_shape (l tok rest : List Char) (h : group1 l = some (tok, rest)) :
    ∃ col row, tok = col ++ row ∧ TokShape col row := by
  unfold group1 at h
  cases hc : refCore l with
  | none => rw [hc] at h; cases h
  | some v =>
    obtain ⟨c, r, rst⟩ := v
    rw [hc] at h
    simp only [Option.some.injEq, Prod.mk.injEq] at h
    obtain ⟨h1, _⟩ := h
    exact ⟨c, r, h1.symm, refCore_shape l c r rst hc⟩

theorem matchAt_shape (l tok rest : List Char) (h : matchAt l = some (tok, rest)) :
    ∃ col row, tok = col ++ row ∧ TokShape col row := by
  unfold matchAt at h
  obtain ⟨e, _, he⟩ := List.exists_of_findSome?_eq_some h
  exact group1_shape e tok rest he

theorem findAllAux_shape : ∀ (fuel : Nat) (l tok : List Char), tok ∈ findAllAux fuel l →
    ∃ col row, tok = col ++ row ∧ TokShape col row := by
  intro fuel
  induction fuel with
  | zero => intro l tok h; cases h
  | succ n ih =>
    intro l tok h
    cases l with
    | nil => cases h
    | cons c cs =>
      cases hm : matchAt (c :: cs) with
      | some p =>
        obtain ⟨t, rest⟩ := p
        simp only [findAllAux, hm] at h
        rcases List.mem_cons.mp h with rfl | h'
        · exact matchAt_shape _ _ _ hm
        · exact ih rest tok h'
      | none =>
        simp only [findAllAux, hm] at h
        exact ih cs tok h

theorem parse_shape (f ref : List Char) (h : ref ∈ parse_cell_references f) :
    ∃ col row, ref = col ++ row ∧ TokShape col row :=
  findAllAux_shape f.length f ref h

/-! ## Decimal digits -/

theorem digitsToNat_le_foldl (t : List Char) :
    ∀ acc : Nat, acc ≤ t.foldl (fun a c => 10 * a + (c.toNat - 48)) acc := by
  induction t with
  | nil => intro acc; exact le_rfl
  | cons c cs ih =>
    intro acc
    calc acc ≤ 10 * acc + (c.toNat - 48) := by omega
    _ ≤ _ := ih _

theorem digitsToNat_cons (c : Char) (cs : List Char) :
    digitsToNat (c :: cs) = cs.foldl (fun a x => 10 * a + (x.toNat - 48)) (c.toNat - 48) := by
  simp [digitsToNat]

theorem digit_bounds (c : Char) (hc : isDigit09 c = true) :
    48 ≤ c.toNat ∧ c.toNat ≤ 57 := by
  simpa [isDigit09, Bool.and_eq_true, decide_eq_true_eq] using hc

theorem digitsToNat_pos (c : Char) (cs : List Char) (hc : isDigit09 c = true)
    (h0 : c ≠ '0') : 0 < digitsToNat (c :: cs) := by
  have hb := digit_bounds c hc
  have h1 : c.toNat ≠ 48 := by
    intro h
    apply h0
    have h2 := Char.ofNat_toNat c
    rw [h] at h2
    rw [← h2]
  rw [digitsToNat_cons]
  calc 0 < c.toNat - 48 := by omega
  _ ≤ _ := digitsToNat_le_foldl cs _

theorem digitsToNat_append (l : List Char) (c : Char) :
    digitsToNat (l ++ [c]) = 10 * digitsToNat l + (c.toNat - 48) := by
  simp [digitsToNat, List.foldl_append]

theorem digitChar_toNat (c : Char) (hc : isDigit09 c = true) :
    digitChar (c.toNat - 48) = c := by
  have h := Char.ofNat_toNat c
  obtain ⟨h1, h2⟩ := digit_bounds c hc
  conv_rhs => rw [← h]
  generalize c.toNat = k at h1 h2 ⊢
  interval_cases k <;> decide

theorem natToDigitsAux_congr : ∀ (f1 f2 n : Nat), n < f1 → n < f2 →
    natToDigitsAux f1 n = natToDigitsAux f2 n := by
  intro f1
  induction f1 with
  | zero => intro f2 n h1 _; omega
  | succ k ih =>
    intro f2 n h1 h2
    cases f2 with
    | zero => omega
    | succ j =>
      by_cases hn : n < 10
      · simp [natToDigitsAux, hn]
      · have hd : n / 10 < n := Nat.div_lt_self (by omega) (by omega)
        simp only [natToDigitsAux, if_neg hn]
        rw [ih j (n / 10) (by omega) (by omega)]

theorem natToDigits_step (m v : Nat) (hm : 1 ≤ m) (hv : v < 10) :
    natToDigits (10 * m + v) = natToDigits m ++ [digitChar v] := by
  have hge : ¬ (10 * m + v < 10) := by omega
  have hdiv : (10 * m + v) / 10 = m := by
    rw [Nat.mul_add_div (by omega), Nat.div_eq_of_lt hv]
    omega
  have hmod : (10 * m + v) % 10 = v := by
    rw [Nat.mul_add_mod]
    exact Nat.mod_eq_of_lt hv
  unfold natToDigits
  simp only [natToDigitsAux, if_neg hge, hdiv, hmod]
  congr 1
  exact natToDigitsAux_congr (10 * m + v) (m + 1) m (by omega) (by omega)

theorem natToDigits_digitsToNat : ∀ l : List Char, l ≠ [] →
    (∀ c ∈ l, isDigit09 c = true) → l.head? ≠ some '0' →
    natToDigits (digitsToNat l) = l := by
  intro l
  induction l using List.reverseRecOn with
  | nil => intro h; cases h rfl
  | append_singleton xs c ih =>
    intro _ hdig h0
    cases xs with
    | nil =>
      have hc : isDigit09 c = true := hdig c (by simp)
      have hb := digit_bounds c hc
      have h1 : digitsToNat [c] = c.toNat - 48 := by simp [digitsToNat]
      have h2 : digitsToNat [c] < 10 := by omega
      simp only [List.nil_append]
      unfold natToDigits
      rw [h1]
      have h3 : c.toNat - 48 < 10 := by omega
      simp only [natToDigitsAux, if_pos h3]
      rw [digitChar_toNat c hc]
    | cons x xs' =>
      have hne' : x :: xs' ≠ [] := by simp
      have hdig' : ∀ a ∈ x :: xs', isDigit09 a = true :=
        fun a ha => hdig a (List.mem_append_left _ ha)
      have h0' : (x :: xs').head? ≠ some '0' := by
        simpa using h0
      have hx0 : x ≠ '0' := by
        intro hx
        apply h0'
        rw [hx]
        rfl
      have hm : 0 < digitsToNat (x :: xs') :=
        digitsToNat_pos x xs' (hdig' x (by simp)) hx0
      have hv : isDigit09 c = true := hdig c (by simp)
      have hvb : c.toNat - 48 < 10 := by
        have := digit_bounds c hv
        omega
      rw [digitsToNat_append, natToDigits_step _ _ hm hvb, ih hne' hdig' h0',
        digitChar_toNat c hv]

/-! ## Replacement -/

theorem isPrefixCh_iff : ∀ (a b : List Char), isPrefixCh a b = true ↔ ∃ t, b = a ++ t := by
  intro a
  induction a with
  | nil => intro b; simp [isPrefixCh]
  | cons x xs ih =>
    intro b
    cases b with
    | nil => simp [isPrefixCh]
    | cons y ys =>
      simp only [isPrefixCh, Bool.and_eq_true, beq_iff_eq, List.cons_append]
      constructor
      · rintro ⟨rfl, h2⟩
        obtain ⟨t, rfl⟩ := (ih ys).mp h2
        exact ⟨t, rfl⟩
      · rintro ⟨t, ht⟩
        injection ht with hy hys
        exact ⟨hy.symm, (ih ys).mpr ⟨t, hys⟩⟩

theorem replGo_self (p : Char) (ps : List Char) :
    ∀ (fuel : Nat) (s : List Char), s.length ≤ fuel →
      replGo p ps (p :: ps) fuel s = s := by
  intro fuel
  induction fuel with
  | zero =>
    intro s hs
    cases s with
    | nil => rfl
    | cons c cs => simp at hs
  | succ n ih =>
    intro s hs
    cases s with
    | nil => rfl
    | cons c cs =>
      by_cases hp : isPrefixCh (p :: ps) (c :: cs) = true
      · obtain ⟨t, ht⟩ := (isPrefixCh_iff _ _).mp hp
        rw [List.cons_append] at ht
        injection ht with hc hcs
        have hdrop : cs.drop ps.length = t := by
          rw [hcs]
          exact List.drop_left ps t
        have hlt : t.length ≤ n := by
          have h1 : cs.length = ps.length + t.length := by
            rw [hcs, List.length_append]
          simp only [List.length_cons] at hs
          omega
        simp only [replGo, if_pos hp, hdrop, ih t hlt]
        rw [hc]
        rw [hcs]
        rw [List.cons_append]
      · simp only [replGo, if_neg hp]
        have : cs.length ≤ n := by
          simp only [List.length_cons] at hs
          omega
        rw [ih cs this]

theorem pyReplace_self (s pat : List Char) : pyReplace s pat pat = s := by
  cases pat with
  | nil => simp [pyReplace]
  | cons p ps => exact replGo_self p ps s.length s le_rfl

/-! ## Sorting -/

theorem mem_insertByLenDesc (x y : List Char) (l : List (List Char)) :
    y ∈ insertByLenDesc x l ↔ y = x ∨ y ∈ l := by
  induction l with
  | nil => simp [insertByLenDesc]
  | cons a t ih =>
    by_cases h : a.length ≤ x.length
    · simp [insertByLenDesc, h]
    · simp only [insertByLenDesc, if_neg h, List.mem_cons, ih]
      tauto

theorem mem_sortByLenDesc (y : List Char) (l : List (List Char)) :
    y ∈ sortByLenDesc l ↔ y ∈ l := by
  induction l with
  | nil => simp [sortByLenDesc]
  | cons a t ih =>
    simp only [sortByLenDesc, List.foldr_cons] at ih ⊢
    rw [mem_insertByLenDesc]
    simp [ih]

/-! ## Identity steps of the substitution loop -/

theorem foldl_adjustStep_const (m : List (Nat × Option Nat)) :
    ∀ (refs : List (List Char)) (f : List Char),
      (∀ ref ∈ refs, ∀ acc, adjustStep m acc ref = acc) →
      refs.foldl (adjustStep m) f = f := by
  intro refs
  induction refs with
  | nil => intro f _; rfl
  | cons r rs ih =>
    intro f h
    rw [List.foldl_cons, h r (by simp) f]
    exact ih f (fun ref hr acc => h ref (List.mem_cons_of_mem _ hr) acc)

theorem adjustStep_of_unmapped (m : List (Nat × Option Nat)) (ref : List Char)
    (h : refRowUnmapped m ref = true) : ∀ acc, adjustStep m acc ref = acc := by
  intro acc
  cases hs : splitRef ref with
  | none => simp [adjustStep, hs]
  | some pr =>
    obtain ⟨colRef, rowRef⟩ := pr
    simp only [refRowUnmapped, hs] at h
    cases hl : List.lookup (rowVal rowRef) m with
    | none => simp [adjustStep, hs, hl]
    | some v =>
      rw [hl] at h
      simp at h

theorem adjustStep_of_tomb (m : List (Nat × Option Nat)) (ref : List Char)
    (h : isTombRef m ref = true) : ∀ acc, adjustStep m acc ref = acc := by
  intro acc
  cases hs : splitRef ref with
  | none => simp [adjustStep, hs]
  | some pr =>
    obtain ⟨colRef, rowRef⟩ := pr
    simp only [isTombRef, hs] at h
    cases hl : List.lookup (rowVal rowRef) m with
    | none => simp [adjustStep, hs, hl]
    | some v =>
      cases v with
      | none => simp [adjustStep, hs, hl]
      | some n =>
        rw [hl] at h
        simp at h

theorem foldl_adjustStep_filter_tomb (m : List (Nat × Option Nat)) :
    ∀ (refs : List (List Char)) (acc : List Char),
      refs.foldl (adjustStep m) acc
        = (refs.filter (fun r => !(isTombRef m r))).foldl (adjustStep m) acc := by
  intro refs
  induction refs with
  | nil => intro acc; rfl
  | cons r rs ih =>
    intro acc
    by_cases ht : isTombRef m r = true
    · rw [List.foldl_cons, adjustStep_of_tomb m r ht acc,
        List.filter_cons_of_neg (by simp [ht])]
      exact ih acc
    · have hf : isTombRef m r = false := Bool.eq_false_iff.mpr ht
      rw [List.foldl_cons, List.filter_cons_of_pos (by simp [hf]), List.foldl_cons]
      exact ih (adjustStep m acc r)

/-! ## The row mapping -/

theorem lookup_cons_self (k : Nat) (v : Option Nat) (t : List (Nat × Option Nat)) :
    List.lookup k ((k, v) :: t) = some v := by
  simp [List.lookup]

theorem lookup_cons_ne (k a : Nat) (v : Option Nat) (t : List (Nat × Option Nat))
    (h : k ≠ a) : List.lookup k ((a, v) :: t) = List.lookup k t := by
  have hb : (k == a) = false := beq_eq_false_iff_ne.mpr h
  simp [List.lookup, hb]

theorem lookup_buildAux (D : Finset Nat) :
    ∀ (l : List Nat) (off r : Nat), l.Sorted (· < ·) →
    List.lookup r (buildAux D l off) =
      if r ∈ l then
        some (if r ∈ D then none
              else some (r - (off + (l.filter (fun d => decide (d ∈ D ∧ d < r))).length)))
      else none := by
  intro l
  induction l with
  | nil => intro off r _; simp [buildAux]
  | cons a t ih =>
    intro off r hs
    rw [List.sorted_cons] at hs
    obtain ⟨ha, ht⟩ := hs
    by_cases hr : r = a
    · subst hr
      have hcnt : ((r :: t).filter (fun d => decide (d ∈ D ∧ d < r))).length = 0 := by
        rw [List.length_eq_zero, List.filter_eq_nil_iff]
        intro d hd
        rcases List.mem_cons.mp hd with rfl | hdt
        · simp
        · have hlt := ha d hdt
          simp only [decide_eq_true_eq, not_and]
          intro _
          omega
      by_cases hD : r ∈ D
      · simp only [buildAux, if_pos hD]
        rw [lookup_cons_self, if_pos (List.mem_cons_self r t)]
      · simp only [buildAux, if_neg hD]
        rw [lookup_cons_self, if_pos (List.mem_cons_self r t), hcnt]
        norm_num
    · by_cases hrt : r ∈ t
      · have har : a < r := ha r hrt
        have hmem' : r ∈ a :: t := List.mem_cons_of_mem _ hrt
        by_cases hD : a ∈ D
        · have hfc : ((a :: t).filter (fun d => decide (d ∈ D ∧ d < r))).length
              = (t.filter (fun d => decide (d ∈ D ∧ d < r))).length + 1 := by
            rw [List.filter_cons_of_pos (by simp [hD, har])]
            simp
          simp only [buildAux, if_pos hD]
          rw [lookup_cons_ne r a _ _ hr, ih (off + 1) r ht, if_pos hrt, if_pos hmem', hfc]
          by_cases hrD : r ∈ D
          · simp [hrD]
          · simp only [if_neg hrD]
            congr 3
            omega
        · have hfc : ((a :: t).filter (fun d => decide (d ∈ D ∧ d < r))).length
              = (t.filter (fun d => decide (d ∈ D ∧ d < r))).length := by
            rw [List.filter_cons_of_neg (by simp [hD])]
          simp only [buildAux, if_neg hD]
          rw [lookup_cons_ne r a _ _ hr, ih off r ht, if_pos hrt, if_pos hmem', hfc]
      · have hmem' : r ∉ a :: t := by
          simp [hr, hrt]
        by_cases hD : a ∈ D
        · simp only [buildAux, if_pos hD]
          rw [lookup_cons_ne r a _ _ hr, ih (off + 1) r ht, if_neg hrt, if_neg hmem']
        · simp only [buildAux, if_neg hD]
          rw [lookup_cons_ne r a _ _ hr, ih off r ht, if_neg hrt, if_neg hmem']

theorem length_filter_sort (keys D : Finset Nat) (r : Nat) :
    ((keys.sort (· ≤ ·)).filter (fun d => decide (d ∈ D ∧ d < r))).length
      = (keys.filter (fun d => d ∈ D ∧ d < r)).card := by
  rw [← List.countP_eq_length_filter]
  have h1 : ((keys.sort (· ≤ ·) : List Nat) : Multiset Nat) = keys.val :=
    Finset.sort_eq _ keys
  rw [← Multiset.coe_countP, h1, Multiset.countP_eq_card_filter]
  rfl

theorem lookup_build (keys D : Finset Nat) (r : Nat) :
    List.lookup r (build_row_mapping_after_deletion keys D) =
      if r ∈ keys then
        some (if r ∈ D then none
              else some (r - (keys.filter (fun d => d ∈ D ∧ d < r)).card))
      else none := by
  rw [build_row_mapping_after_deletion,
    lookup_buildAux D (keys.sort (· ≤ ·)) 0 r (Finset.sort_sorted_lt keys),
    length_filter_sort]
  simp [Finset.mem_sort]

theorem lookup_build_empty (keys : Finset Nat) (r : Nat) :
    List.lookup r (build_row_mapping_after_deletion keys ∅) =
      if r ∈ keys then some (some r) else none := by
  rw [lookup_build]
  by_cases h : r ∈ keys
  · simp [h]
  · simp [h]

theorem sort_Icc (a b : Nat) :
    (Finset.Icc a b).sort (· ≤ ·) = List.range' a (b + 1 - a) := by
  have hperm : List.Perm ((Finset.Icc a b).sort (· ≤ ·)) (List.range' a (b + 1 - a)) := by
    rw [← Multiset.coe_eq_coe, Finset.sort_eq, Nat.Icc_eq_range']
  have h2 : List.Sorted (· ≤ ·) (List.range' a (b + 1 - a)) :=
    List.Pairwise.imp (fun h => Nat.le_of_lt h) (List.pairwise_lt_range' a (b + 1 - a))
  exact List.eq_of_perm_of_sorted hperm (Finset.sort_sorted _ _) h2

theorem build_Icc_eval (N : Nat) (D : Finset Nat) :
    build_row_mapping_after_deletion (Finset.Icc 1 N) D
      = buildAux D (List.range' 1 N) 0 := by
  rw [build_row_mapping_after_deletion, sort_Icc]
  norm_num

theorem adjustStep_empty_mapping (keys : Finset Nat) (acc ref col row : List Char)
    (href : ref = col ++ row) (hshape : TokShape col row)
    (hlz : refCanonicalRow ref = true) :
    adjustStep (build_row_mapping_after_deletion keys ∅) acc ref = acc := by
  have hsplit : splitRef ref = some (col, row) := by
    rw [href]
    exact splitRef_recompose col row hshape
  simp only [refCanonicalRow, hsplit] at hlz
  obtain ⟨dc, lets, dr, digs, hcol, hrow, hdc, hdr, hlne, hdne, hlets, hdigs⟩ := hshape
  obtain ⟨d, ds, hds⟩ : ∃ d ds, digs = d :: ds := by
    cases digs with
    | nil => exact absurd rfl hdne
    | cons d ds => exact ⟨d, ds, rfl⟩
  subst hds
  have hd : isDigit09 d = true := hdigs d (List.mem_cons_self d ds)
  rcases hdr with rfl | rfl
  · rw [List.nil_append] at hrow
    subst hrow
    have habs : rowAbs (d :: ds) = false := by
      simp [rowAbs, digit_ne_dollar hd]
    have hval : rowVal (d :: ds) = digitsToNat (d :: ds) := by
      simp [rowVal, habs]
    have h0 : (d :: ds).head? ≠ some '0' := by
      simp only [rowNoLeadZero, habs] at hlz
      simpa using hlz
    have hrt : natToDigits (digitsToNat (d :: ds)) = d :: ds :=
      natToDigits_digitsToNat (d :: ds) (by simp) hdigs h0
    have hrefs : col ++ d :: ds = ref := href.symm
    by_cases hk : digitsToNat (d :: ds) ∈ keys
    · simp [adjustStep, hsplit, lookup_build_empty, hval, habs, hrt, hk, hrefs,
        pyReplace_self]
    · simp [adjustStep, hsplit, lookup_build_empty, hval, hk]
  · subst hrow
    simp only [List.singleton_append] at hlz hsplit href
    have habs : rowAbs ('$' :: d :: ds) = true := by
      simp [rowAbs]
    have hval : rowVal ('$' :: d :: ds) = digitsToNat (d :: ds) := by
      simp [rowVal, habs]
    have h0 : (d :: ds).head? ≠ some '0' := by
      simp only [rowNoLeadZero, habs] at hlz
      simpa using hlz
    have hrt : natToDigits (digitsToNat (d :: ds)) = d :: ds :=
      natToDigits_digitsToNat (d :: ds) (by simp) hdigs h0
    have hrefs : col ++ '$' :: d :: ds = ref := href.symm
    by_cases hk : digitsToNat (d :: ds) ∈ keys
    · simp [adjustStep, hsplit, lookup_build_empty, hval, habs, hrt, hk, hrefs,
        pyReplace_self]
    · simp [adjustStep, hsplit, lookup_build_empty, hval, hk]

/-! ## Counting bounds for the mapping -/

theorem cnt_le_pred (N : Nat) (D : Finset Nat) (a : Nat) (ha : 1 ≤ a) :
    ((Finset.Icc 1 N).filter (fun d => d ∈ D ∧ d < a)).card ≤ a - 1 := by
  have hsub : (Finset.Icc 1 N).filter (fun d => d ∈ D ∧ d < a) ⊆ Finset.Ico 1 a := by
    intro d hd
    rw [Finset.mem_filter, Finset.mem_Icc] at hd
    rw [Finset.mem_Ico]
    exact ⟨hd.1.1, hd.2.2⟩
  have h := Finset.card_le_card hsub
  rwa [Nat.card_Ico] at h

theorem cnt_mono_gap (N : Nat) (D : Finset Nat) (a b : Nat) (haD : a ∉ D) :
    ((Finset.Icc 1 N).filter (fun d => d ∈ D ∧ d < b)).card
      ≤ ((Finset.Icc 1 N).filter (fun d => d ∈ D ∧ d < a)).card + (b - a - 1) := by
  have hsub : (Finset.Icc 1 N).filter (fun d => d ∈ D ∧ d < b)
      ⊆ ((Finset.Icc 1 N).filter (fun d => d ∈ D ∧ d < a)) ∪ Finset.Ioo a b := by
    intro d hd
    rw [Finset.mem_filter] at hd
    rw [Finset.mem_union, Finset.mem_filter, Finset.mem_Ioo]
    by_cases hda : d < a
    · exact Or.inl ⟨hd.1, hd.2.1, hda⟩
    · right
      have hne : d ≠ a := by
        intro h
        exact haD (h ▸ hd.2.1)
      exact ⟨by omega, hd.2.2⟩
  calc ((Finset.Icc 1 N).filter (fun d => d ∈ D ∧ d < b)).card
      ≤ (((Finset.Icc 1 N).filter (fun d => d ∈ D ∧ d < a)) ∪ Finset.Ioo a b).card :=
        Finset.card_le_card hsub
  _ ≤ ((Finset.Icc 1 N).filter (fun d => d ∈ D ∧ d < a)).card + (Finset.Ioo a b).card :=
        Finset.card_union_le _ _
  _ = _ := by rw [Nat.card_Ioo]

theorem mapped_lt_mapped (N : Nat) (D : Finset Nat) (a b : Nat)
    (haN : a ∈ Finset.Icc 1 N) (haD : a ∉ D) (hab : a < b) :
    a - ((Finset.Icc 1 N).filter (fun d => d ∈ D ∧ d < a)).card
      < b - ((Finset.Icc 1 N).filter (fun d => d ∈ D ∧ d < b)).card := by
  rw [Finset.mem_Icc] at haN
  have h1 := cnt_le_pred N D a haN.1
  have h2 := cnt_mono_gap N D a b haD
  omega

/-! ## Per-cell behaviour of the worksheet update -/

theorem adjustCell_fst (m : List (Nat × Option Nat)) (c : Cell) :
    (adjustCell m c).1 = c ∨
      (c.data_type = ['f'] ∧ ∃ s, c.value = CellValue.str s ∧
        adjust_formula_references s m ≠ s ∧
        (adjustCell m c).1
          = Cell.mk c.data_type (CellValue.str (adjust_formula_references s m))) := by
  by_cases h1 : c.data_type = ['f']
  · cases hv : c.value with
    | nonstr => left; simp [adjustCell, h1, hv]
    | str s =>
      by_cases h2 : s = []
      · left; simp [adjustCell, h1, hv, h2]
      · by_cases h3 : adjust_formula_references s m = s
        · left; simp [adjustCell, h1, hv, h2, h3]
        · right
          refine ⟨h1, s, rfl, h3, ?_⟩
          simp [adjustCell, h1, hv, h2, h3]
  · left; simp [adjustCell, h1]

theorem adjustCell_snd (m : List (Nat × Option Nat)) (c : Cell) :
    (adjustCell m c).2 = if (adjustCell m c).1.value = c.value then 0 else 1 := by
  by_cases h1 : c.data_type = ['f']
  · cases hv : c.value with
    | nonstr => simp [adjustCell, h1, hv]
    | str s =>
      by_cases h2 : s = []
      · simp [adjustCell, h1, hv, h2]
      · by_cases h3 : adjust_formula_references s m = s
        · simp [adjustCell, h1, hv, h2, h3]
        · simp [adjustCell, h1, hv, h2, h3]
  · simp [adjustCell, h1]

theorem forall2_map_self {α : Type} (r : α → α → Prop) (f : α → α) :
    ∀ l : List α, (∀ x ∈ l, r x (f x)) → List.Forall₂ r l (l.map f) := by
  intro l
  induction l with
  | nil => intro _; exact List.Forall₂.nil
  | cons a t ih =>
    intro h
    rw [List.map_cons]
    exact List.Forall₂.cons (h a (List.mem_cons_self a t))
      (ih (fun x hx => h x (List.mem_cons_of_mem _ hx)))

theorem zip_map_self {α β : Type} (g : α → β) :
    ∀ l : List α, l.zip (l.map g) = l.map (fun a => (a, g a)) := by
  intro l
  induction l with
  | nil => rfl
  | cons a t ih => simp [ih]

theorem row_count (m : List (Nat × Option Nat)) (row : List Cell) :
    (row.map (fun c => (adjustCell m c).2)).sum
      = row.countP (fun c => decide ((adjustCell m c).1.value ≠ c.value)) := by
  induction row with
  | nil => rfl
  | cons c cs ih =>
    rw [List.map_cons, List.sum_cons, List.countP_cons, ih, adjustCell_snd]
    by_cases h : (adjustCell m c).1.value = c.value
    · simp [h]
    · simp [h, Nat.add_comm]


/-! ## The claims -/

/-- Claim C1: `build_row_mapping_after_deletion` returns a mapping defined on
exactly the input row-number set; every input row in the deleted set maps to
the tombstone `none`, and every retained input row `r` maps to `r` minus the
number of deleted rows of the input set that are smaller than `r`. -/
theorem claim1_build_row_mapping (keys D : Finset Nat) (r : Nat) :
    ((List.lookup r (build_row_mapping_after_deletion keys D)).isSome ↔ r ∈ keys)
    ∧ (r ∈ keys → r ∈ D →
        List.lookup r (build_row_mapping_after_deletion keys D) = some none)
    ∧ (r ∈ keys → r ∉ D →
        List.lookup r (build_row_mapping_after_deletion keys D)
          = some (some (r - (keys.filter (fun d => d ∈ D ∧ d < r)).card))) := by
  simp only [lookup_build]
  refine ⟨?_, ?_, ?_⟩
  · by_cases h : r ∈ keys <;> simp [h]
  · intro h1 h2
    rw [if_pos h1, if_pos h2]
  · intro h1 h2
    rw [if_pos h1, if_neg h2]

/-- Witness for C1: over rows 1..5 with deleted rows 2 and 3, row 5 is
retained and maps to 3 = 5 minus the two smaller deleted rows. -/
theorem claim1_build_row_mapping_witness :
    List.lookup 5 (build_row_mapping_after_deletion (Finset.Icc 1 5)
        ({2, 3} : Finset Nat)) = some (some 3) := by
  have h := (claim1_build_row_mapping (Finset.Icc 1 5) {2, 3} 5).2.2
    (by decide) (by decide)
  rw [h]
  decide

/-- Counterexample to Claim C2: the formula `=Other!A5` references only the
sheet `Other`, yet `adjust_formula_references` rewrites it with the in-use
mapping (built for a different sheet) because the engine ignores sheet
qualifiers: the result is `=Other!A3`, not byte-for-byte identical. -/
theorem claim2_counterexample :
    adjust_formula_references ("=Other!A5".toList)
        (build_row_mapping_after_deletion (Finset.Icc 1 5) ({1, 2} : Finset Nat))
      = "=Other!A3".toList
    ∧ adjust_formula_references ("=Other!A5".toList)
        (build_row_mapping_after_deletion (Finset.Icc 1 5) ({1, 2} : Finset Nat))
      ≠ "=Other!A5".toList := by
  have h : adjust_formula_references ("=Other!A5".toList)
      (build_row_mapping_after_deletion (Finset.Icc 1 5) ({1, 2} : Finset Nat))
      = "=Other!A3".toList := by
    rw [build_Icc_eval]
    decide
  refine ⟨h, ?_⟩
  rw [h]
  decide

/-- Claim C2 amended: the rewriter ignores sheet qualifiers and consults the
in-use mapping for qualified and unqualified references alike, so referencing
only unfiltered sheets does not guarantee identity (see the counterexample).
What does hold is the restriction proved here: if no captured reference of
the formula has its row number present in the in-use mapping, the formula is
returned byte-for-byte identical. -/
theorem claim2_amended (f : List Char) (m : List (Nat × Option Nat))
    (h : ∀ ref ∈ parse_cell_references f, refRowUnmapped m ref = true) :
    adjust_formula_references f m = f := by
  unfold adjust_formula_references
  split
  · exact foldl_adjustStep_const m _ f
      (fun ref hr acc => adjustStep_of_unmapped m ref
        (h ref ((mem_sortByLenDesc ref _).mp hr)) acc)
  · rfl

/-- Witness for the amended C2: `=Other!A5` passes through unchanged when
row 5 is absent from the in-use mapping. -/
theorem claim2_amended_witness :
    (∀ ref ∈ parse_cell_references ("=Other!A5".toList),
        refRowUnmapped [((9 : Nat), some 4)] ref = true)
    ∧ adjust_formula_references ("=Other!A5".toList) [((9 : Nat), some 4)]
        = "=Other!A5".toList :=
  ⟨by decide, claim2_amended _ _ (by decide)⟩

/-- Claim C3: with deleted rows 2..9 over original rows 1..100, the formula
`=A1+A10+A100` rewrites to exactly `=A1+A2+A92`, each reference rewritten
independently without substring cross-corruption. -/
theorem claim3_longest_match :
    adjust_formula_references ("=A1+A10+A100".toList)
      (build_row_mapping_after_deletion (Finset.Icc 1 100)
        ({2, 3, 4, 5, 6, 7, 8, 9} : Finset Nat))
      = "=A1+A2+A92".toList := by
  rw [build_Icc_eval]
  decide

/-- Claim C4: for a mapping built from any deleted set `D` over rows `1..N`,
the mapping is strictly increasing on retained rows. -/
theorem claim4_monotone (N : Nat) (D : Finset Nat) (a b x y : Nat)
    (haN : a ∈ Finset.Icc 1 N) (hbN : b ∈ Finset.Icc 1 N)
    (haD : a ∉ D) (hbD : b ∉ D) (hab : a < b)
    (hx : List.lookup a (build_row_mapping_after_deletion (Finset.Icc 1 N) D)
        = some (some x))
    (hy : List.lookup b (build_row_mapping_after_deletion (Finset.Icc 1 N) D)
        = some (some y)) :
    x < y := by
  rw [lookup_build, if_pos haN, if_neg haD] at hx
  rw [lookup_build, if_pos hbN, if_neg hbD] at hy
  simp only [Option.some.injEq] at hx hy
  rw [← hx, ← hy]
  exact mapped_lt_mapped N D a b haN haD hab

/-- Witness for C4: over rows 1..5 with row 2 deleted, rows 3 and 4 map to
2 and 3, and 2 < 3. -/
theorem claim4_monotone_witness :
    List.lookup 3 (build_row_mapping_after_deletion (Finset.Icc 1 5)
        ({2} : Finset Nat)) = some (some 2)
    ∧ List.lookup 4 (build_row_mapping_after_deletion (Finset.Icc 1 5)
        ({2} : Finset Nat)) = some (some 3)
    ∧ (2 : Nat) < 3 := by
  have h3 : List.lookup 3 (build_row_mapping_after_deletion (Finset.Icc 1 5)
      ({2} : Finset Nat)) = some (some 2) := by
    rw [build_Icc_eval]
    decide
  have h4 : List.lookup 4 (build_row_mapping_after_deletion (Finset.Icc 1 5)
      ({2} : Finset Nat)) = some (some 3) := by
    rw [build_Icc_eval]
    decide
  exact ⟨h3, h4, claim4_monotone 5 {2} 3 4 2 3 (by decide) (by decide) (by decide)
    (by decide) (by decide) h3 h4⟩

/-- Counterexample to Claim C5: with rows 1 and 23 deleted over 1..23, row 23
is tombstoned and the reference `A23` of `=A2+A23` is skipped by the loop, yet
the later substitution of `A2` by `A1` textually corrupts it: the output is
`=A1+A13` and no longer contains `A23`. -/
theorem claim5_counterexample :
    List.lookup 23 (build_row_mapping_after_deletion (Finset.Icc 1 23)
        ({1, 23} : Finset Nat)) = some none
    ∧ containsTok ("A23".toList) ("=A2+A23".toList) = true
    ∧ adjust_formula_references ("=A2+A23".toList)
        (build_row_mapping_after_deletion (Finset.Icc 1 23) ({1, 23} : Finset Nat))
        = "=A1+A13".toList
    ∧ containsTok ("A23".toList)
        (adjust_formula_references ("=A2+A23".toList)
          (build_row_mapping_after_deletion (Finset.Icc 1 23)
            ({1, 23} : Finset Nat)))
        = false := by
  rw [build_Icc_eval]
  decide

/-- Claim C5 amended: the rewriter performs no substitution for a tombstoned
reference (in particular it never synthesizes `#REF!`): dropping all
tombstoned references from the substitution list leaves the output unchanged.
The occurrence of a tombstoned reference may still be altered textually by the
substitution performed for a different, shorter reference. -/
theorem claim5_amended (f : List Char) (m : List (Nat × Option Nat)) :
    adjust_formula_references f m = adjustSkippingTombstones f m := by
  unfold adjust_formula_references adjustSkippingTombstones
  split
  · exact foldl_adjustStep_filter_tomb m _ f
  · rfl

/-- Counterexample to Claim C6: under the no-deletion mapping over rows 1..7,
the formula `=A07` is rewritten to `=A7` because the rebuilt row reference
uses the canonical decimal numeral, so the rewrite is not the identity. -/
theorem claim6_counterexample :
    adjust_formula_references ("=A07".toList)
        (build_row_mapping_after_deletion (Finset.Icc 1 7) (∅ : Finset Nat))
      = "=A7".toList
    ∧ adjust_formula_references ("=A07".toList)
        (build_row_mapping_after_deletion (Finset.Icc 1 7) (∅ : Finset Nat))
      ≠ "=A07".toList := by
  have h : adjust_formula_references ("=A07".toList)
      (build_row_mapping_after_deletion (Finset.Icc 1 7) (∅ : Finset Nat))
      = "=A7".toList := by
    rw [build_Icc_eval]
    decide
  refine ⟨h, ?_⟩
  rw [h]
  decide

/-- Claim C6 amended: for any formula in which no captured reference writes
its row number with leading zeros, rewriting with a mapping built from an
empty deleted-row set returns the formula unchanged. -/
theorem claim6_amended (keys : Finset Nat) (f : List Char)
    (h : ∀ ref ∈ parse_cell_references f, refCanonicalRow ref = true) :
    adjust_formula_references f (build_row_mapping_after_deletion keys ∅) = f := by
  unfold adjust_formula_references
  split
  · apply foldl_adjustStep_const
    intro ref hr acc
    have hmem := (mem_sortByLenDesc ref _).mp hr
    obtain ⟨col, row, href, hshape⟩ := parse_shape f ref hmem
    exact adjustStep_empty_mapping keys acc ref col row href hshape (h ref hmem)
  · rfl

/-- Witness for the amended C6: `=A1+B2` is unchanged by the no-deletion
mapping over rows 1 and 2. -/
theorem claim6_amended_witness :
    (∀ ref ∈ parse_cell_references ("=A1+B2".toList), refCanonicalRow ref = true)
    ∧ adjust_formula_references ("=A1+B2".toList)
        (build_row_mapping_after_deletion ({1, 2} : Finset Nat) ∅)
      = "=A1+B2".toList :=
  ⟨by decide, claim6_amended {1, 2} _ (by decide)⟩

/-- Claim C7: `adjust_formula_references` is a total function (it is defined
as a Lean function, with no partiality anywhere in the embedding), and every
string that does not start with an equals sign is returned unchanged. -/
theorem claim7_total_passthrough (f : List Char) (m : List (Nat × Option Nat))
    (h : f.head? ≠ some '=') : adjust_formula_references f m = f := by
  unfold adjust_formula_references
  rw [if_neg h]

/-- Witness for C7: `hello` is not a formula and passes through. -/
theorem claim7_total_passthrough_witness :
    ("hello".toList.head? ≠ some '=')
    ∧ adjust_formula_references ("hello".toList) [((1 : Nat), some 2)]
        = "hello".toList :=
  ⟨by decide, claim7_total_passthrough _ _ (by decide)⟩

/-- Claim C8: substitution applies to every occurrence: `=A10*A10+A10` under a
mapping sending row 10 to row 7 becomes `=A7*A7+A7`. -/
theorem claim8_all_occurrences :
    adjust_formula_references ("=A10*A10+A10".toList) [((10 : Nat), some 7)]
      = "=A7*A7+A7".toList := by
  decide

/-- Claim C9: for original rows exactly 1..N with d rows deleted, the new row
numbers of the retained rows are exactly the contiguous range 1..N-d. -/
theorem claim9_compaction (N : Nat) (D : Finset Nat) (hD : D ⊆ Finset.Icc 1 N)
    (m : Nat) :
    (∃ r, r ∈ Finset.Icc 1 N ∧ r ∉ D ∧
        List.lookup r (build_row_mapping_after_deletion (Finset.Icc 1 N) D)
          = some (some m))
      ↔ (1 ≤ m ∧ m ≤ N - D.card) := by
  have hlook : ∀ r, r ∈ Finset.Icc 1 N → r ∉ D →
      List.lookup r (build_row_mapping_after_deletion (Finset.Icc 1 N) D)
        = some (some (r - ((Finset.Icc 1 N).filter (fun d => d ∈ D ∧ d < r)).card)) := by
    intro r h1 h2
    rw [lookup_build, if_pos h1, if_neg h2]
  have hstep1 : (∃ r, r ∈ Finset.Icc 1 N ∧ r ∉ D ∧
      List.lookup r (build_row_mapping_after_deletion (Finset.Icc 1 N) D)
        = some (some m))
      ↔ m ∈ ((Finset.Icc 1 N).filter (fun r => r ∉ D)).image
          (fun r => r - ((Finset.Icc 1 N).filter (fun d => d ∈ D ∧ d < r)).card) := by
    rw [Finset.mem_image]
    constructor
    · rintro ⟨r, h1, h2, h3⟩
      rw [hlook r h1 h2, Option.some.injEq, Option.some.injEq] at h3
      exact ⟨r, Finset.mem_filter.mpr ⟨h1, h2⟩, h3⟩
    · rintro ⟨r, hr, hgr⟩
      rw [Finset.mem_filter] at hr
      exact ⟨r, hr.1, hr.2, by rw [hlook r hr.1 hr.2, hgr]⟩
  rw [hstep1]
  have himage : ((Finset.Icc 1 N).filter (fun r => r ∉ D)).image
      (fun r => r - ((Finset.Icc 1 N).filter (fun d => d ∈ D ∧ d < r)).card)
      = Finset.Icc 1 (N - D.card) := by
    apply Finset.eq_of_subset_of_card_le
    · intro x hx
      rw [Finset.mem_image] at hx
      obtain ⟨r, hr, rfl⟩ := hx
      rw [Finset.mem_filter] at hr
      have hrIcc := hr.1
      rw [Finset.mem_Icc] at hrIcc
      have h1 := cnt_le_pred N D r hrIcc.1
      have hcount : (Finset.Icc 1 N).filter (fun d => d ∈ D ∧ d < r)
          = D.filter (fun d => d < r) := by
        ext d
        simp only [Finset.mem_filter]
        constructor
        · rintro ⟨_, hdD, hdr⟩
          exact ⟨hdD, hdr⟩
        · rintro ⟨hdD, hdr⟩
          exact ⟨hD hdD, hdD, hdr⟩
      have hsplitc : (D.filter (fun d => d < r)).card
          + (D.filter (fun d => ¬ d < r)).card = D.card :=
        Finset.filter_card_add_filter_neg_card_eq_card (fun d => d < r)
      have hupper : (D.filter (fun d => ¬ d < r)).card ≤ N - r := by
        have hsub2 : D.filter (fun d => ¬ d < r) ⊆ Finset.Ioc r N := by
          intro d hd
          rw [Finset.mem_filter] at hd
          have hdN := (Finset.mem_Icc.mp (hD hd.1)).2
          have hne : d ≠ r := by
            intro heq
            exact hr.2 (heq ▸ hd.1)
          rw [Finset.mem_Ioc]
          exact ⟨by omega, hdN⟩
        have hcard := Finset.card_le_card hsub2
        rwa [Nat.card_Ioc] at hcard
      rw [hcount] at h1
      obtain ⟨hr1, hr2⟩ := hrIcc
      rw [Finset.mem_Icc, hcount]
      omega
    · have hinj : Set.InjOn
          (fun r => r - ((Finset.Icc 1 N).filter (fun d => d ∈ D ∧ d < r)).card)
          ((Finset.Icc 1 N).filter (fun r => r ∉ D)) := by
        intro a hA b hB hEq
        rw [Finset.mem_coe, Finset.mem_filter] at hA hB
        have hEq' : a - ((Finset.Icc 1 N).filter (fun d => d ∈ D ∧ d < a)).card
            = b - ((Finset.Icc 1 N).filter (fun d => d ∈ D ∧ d < b)).card := hEq
        by_contra hne
        rcases Nat.lt_or_ge a b with hab | hba
        · have hlt := mapped_lt_mapped N D a b hA.1 hA.2 hab
          omega
        · have hba' : b < a := by omega
          have hlt := mapped_lt_mapped N D b a hB.1 hB.2 hba'
          omega
      have hcardim := Finset.card_image_of_injOn hinj
      have h1 : ((Finset.Icc 1 N).filter (fun r => r ∈ D)) = D := by
        ext d
        simp only [Finset.mem_filter]
        constructor
        · rintro ⟨_, hmem⟩
          exact hmem
        · intro hmem
          exact ⟨hD hmem, hmem⟩
      have h2 : ((Finset.Icc 1 N).filter (fun r => r ∈ D)).card
          + ((Finset.Icc 1 N).filter (fun r => ¬ r ∈ D)).card
          = (Finset.Icc 1 N).card :=
        Finset.filter_card_add_filter_neg_card_eq_card (fun r => r ∈ D)
      rw [h1] at h2
      have h3 : (Finset.Icc 1 N).card = N := by
        rw [Nat.card_Icc]
        omega
      rw [h3] at h2
      rw [hcardim, Nat.card_Icc]
      omega
  rw [himage, Finset.mem_Icc]

/-- Witness for C9: over rows 1..3 with row 2 deleted, the new row number 2 is
attained by some retained row. -/
theorem claim9_compaction_witness :
    ∃ r, r ∈ Finset.Icc 1 3 ∧ r ∉ ({2} : Finset Nat) ∧
      List.lookup r (build_row_mapping_after_deletion (Finset.Icc 1 3)
          ({2} : Finset Nat)) = some (some 2) :=
  (claim9_compaction 3 {2} (by decide) 2).mpr (by decide)

/-- Claim C10: `update_formulas_in_sheet` assigns a new value only to cells
with `data_type` `f` whose adjusted formula differs from the original (those
cells get exactly the adjusted formula as their new value and keep their
`data_type`); every other cell is returned unchanged; and the returned count
equals the number of cells whose value changed. -/
theorem claim10_update_frame (ws : List (List Cell)) (m : List (Nat × Option Nat)) :
    List.Forall₂ (List.Forall₂ (fun c c' =>
        c' = c ∨
          (c.data_type = ['f'] ∧ ∃ s, c.value = CellValue.str s ∧
            adjust_formula_references s m ≠ s ∧
            c' = Cell.mk c.data_type (CellValue.str (adjust_formula_references s m)))))
      ws (update_formulas_in_sheet ws m).1
    ∧ (update_formulas_in_sheet ws m).2
        = ((ws.flatten).zip ((update_formulas_in_sheet ws m).1.flatten)).countP
            (fun p => decide (p.2.value ≠ p.1.value)) := by
  have h1 : (update_formulas_in_sheet ws m).1
      = ws.map (fun row => row.map (fun c => (adjustCell m c).1)) := rfl
  constructor
  · rw [h1]
    apply forall2_map_self
    intro row _
    apply forall2_map_self
    intro c _
    rcases adjustCell_fst m c with h | ⟨ha, s, hb, hc, hd⟩
    · exact Or.inl h
    · exact Or.inr ⟨ha, s, hb, hc, hd⟩
  · have h2 : (update_formulas_in_sheet ws m).2
        = (ws.map (fun row => (row.map (fun c => (adjustCell m c).2)).sum)).sum := rfl
    rw [h1, h2, ← List.map_flatten, zip_map_self, List.countP_map, List.countP_flatten]
    congr 1
    apply List.map_congr_left
    intro row _
    rw [row_count]
    rfl


end ExcelSplitter
